import Mathlib

/-!
Verification development for the RobotOS command plane.

The embedding covers:
* `src/server/command_aggregator.py` — validation, statistics, bounded history
  (`CommandAggregator._validate_command`, `process_command`, `_add_to_history`);
* `src/rpi/zmq_server.py` — the actuator (`sleep_interruptible`, `execute_token`,
  `execute_sequence`, `motion_worker`, `stop_motion`/`start_motion` effects,
  `handle_payload`).

Strings are modelled as `List Char`; Python `str.strip`/`str.split()` default
whitespace is modelled by the six ASCII whitespace characters, and
`str.lower` by ASCII lowercasing (all command text handled by the repository
is ASCII).  Durations (Python floats) are modelled as exact rationals.
The actuator's hardware side effects are modelled as an event trace.
-/

/-- Strings are modelled as lists of characters. -/
abbrev Str := List Char

/-- The six ASCII characters stripped by Python `str.strip()` and used as
separators by `str.split()`. -/
def isPySpace (c : Char) : Bool :=
  c = ' ' || c = '\t' || c = '\n' || c = '\x0d' || c = '\x0b' || c = '\x0c'

/-- ASCII lowercasing of one character, as Python `str.lower` acts on ASCII. -/
def lowerChar (c : Char) : Char :=
  if 'A' ≤ c ∧ c ≤ 'Z' then Char.ofNat (c.toNat + 32) else c

/-- Python `str.lower` (ASCII fragment). -/
def pyLower (s : Str) : Str := s.map lowerChar

/-- Python `str.strip()`: drop leading and trailing whitespace. -/
def stripList (s : Str) : Str :=
  ((s.dropWhile isPySpace).reverse.dropWhile isPySpace).reverse

/-- Accumulator-based splitter: `w` is the current word, reversed. -/
def splitWsAux : Str → Str → List Str
  | [], w => if w = [] then [] else [w.reverse]
  | c :: cs, w =>
    if isPySpace c then
      (if w = [] then splitWsAux cs [] else w.reverse :: splitWsAux cs [])
    else splitWsAux cs (c :: w)

/-- Python `str.split()` with no argument: split on runs of whitespace,
dropping empty fields. -/
def splitWs (s : Str) : List Str := splitWsAux s []

/-- Python `max` on rationals (float `max` in the source). -/
def qmax (a b : ℚ) : ℚ := if a ≤ b then b else a

/-- Python `min` on rationals (float `min` in the source). -/
def qmin (a b : ℚ) : ℚ := if a ≤ b then a else b

/-- Python `base.split(":")[0]`: the part of a string before the first colon. -/
def beforeColon (s : Str) : Str := s.takeWhile (fun c => c != ':')

/-- The part of a string after the first colon (used for `kind:value` tokens). -/
def afterColon (s : Str) : Str := (s.dropWhile (fun c => c != ':')).drop 1

/-- Python `text.startswith("seq ")`. -/
def startsWithSeq (s : Str) : Bool := "seq ".data.isPrefixOf s

/-! ## Aggregator (`src/server/command_aggregator.py`) -/

/-- Model of `CommandAggregator.allowed_commands` (line 75). -/
def allowedCommands : List Str :=
  ["forward".data, "backward".data, "left".data, "right".data,
   "stop".data, "lock".data, "unlock".data, "sleep".data]

/-- Model of `CommandAggregator._validate_command` (lines 133-170): validate and
normalize one command.  Returns `(is_valid, normalized_command)`. -/
def validateCommand (command : Str) : Bool × Str :=
  if command = [] then (false, [])
  else
    let normalized := stripList command
    if startsWithSeq normalized then (true, normalized)
    else
      match splitWs normalized with
      | [] => (false, [])
      | p :: _ =>
        let base := pyLower p
        if base ∈ allowedCommands then (true, normalized)
        else if ':' ∈ base then
          if beforeColon base ∈ allowedCommands then (true, normalized)
          else (false, [])
        else (false, [])

/-- One entry of `CommandAggregator.command_history` (`_add_to_history`). -/
structure HistoryEntry where
  timestamp : ℕ
  raw : Str
  processed : Str
  source : Str
  priority : ℕ
deriving DecidableEq

/-- The mutable state of a `CommandAggregator` instance. -/
structure AggState where
  totalCommands : ℕ
  bySource : List (Str × ℕ)
  errors : ℕ
  history : List HistoryEntry
  lastCommand : Option Str
  lastCommandTime : ℕ
  maxHistory : ℕ
deriving DecidableEq

/-- Model of `CommandAggregator.__init__(max_history)` (lines 57-72). -/
def initAgg (cap : ℕ) : AggState :=
  { totalCommands := 0, bySource := [], errors := 0, history := [],
    lastCommand := none, lastCommandTime := 0, maxHistory := cap }

/-- The default aggregator (`max_history = 100`). -/
def defaultAgg : AggState := initAgg 100

/-- Python `dict.get(k, 0) + 1` assignment on an insertion-ordered dict,
modelled on an association list. -/
def bumpAssoc : List (Str × ℕ) → Str → List (Str × ℕ)
  | [], k => [(k, 1)]
  | (k', v) :: rest, k =>
    if k' = k then (k', v + 1) :: rest else (k', v) :: bumpAssoc rest k

/-- Dictionary lookup with default 0. -/
def lookupAssoc : List (Str × ℕ) → Str → ℕ
  | [], _ => 0
  | (k', v) :: rest, k => if k' = k then v else lookupAssoc rest k

/-- Sum of all counters of a source dictionary. -/
def sumAssoc (l : List (Str × ℕ)) : ℕ := (l.map (·.2)).sum

/-- The last `cap` elements of a list, in order.  `histAppend` below uses it
to express `collections.deque(maxlen = cap)` append semantics. -/
def lastN (cap : ℕ) (l : List α) : List α := (l.reverse.take cap).reverse

/-- Model of `CommandAggregator._add_to_history` (lines 172-189): append to a
`deque` bounded by `maxlen = cap`, evicting the oldest entry when full. -/
def histAppend (cap : ℕ) (l : List HistoryEntry) (e : HistoryEntry) :
    List HistoryEntry :=
  lastN cap (l ++ [e])

/-- Model of `CommandAggregator.process_command` (lines 82-131).  Returns
`((success, processed_command, message), new_state)`.  The wall-clock time
read by `time.time()` is supplied as the argument `now`. -/
def processCommand (st : AggState) (command source : Str) (priority : ℕ)
    (now : ℕ) : (Bool × Option Str × Str) × AggState :=
  let st1 : AggState :=
    { st with totalCommands := st.totalCommands + 1,
              bySource := bumpAssoc st.bySource source }
  let v := validateCommand command
  if v.1 then
    let entry : HistoryEntry :=
      { timestamp := now, raw := command, processed := v.2,
        source := source, priority := priority }
    ((true, some v.2, "Command processed successfully".data),
     { st1 with history := histAppend st1.maxHistory st1.history entry,
                lastCommand := some v.2, lastCommandTime := now })
  else
    ((false, none, "Invalid command: ".data ++ command),
     { st1 with errors := st1.errors + 1 })

/-- One producer call into the aggregator. -/
structure AggCall where
  cmd : Str
  src : Str
  pri : ℕ
  now : ℕ

/-- Run a list of producer calls through the aggregator. -/
def runAgg (st : AggState) (calls : List AggCall) : AggState :=
  calls.foldl (fun s c => (processCommand s c.cmd c.src c.pri c.now).2) st

/-- The history entry an accepted call produces. -/
def entryOf (c : AggCall) : HistoryEntry :=
  { timestamp := c.now, raw := c.cmd, processed := (validateCommand c.cmd).2,
    source := c.src, priority := c.pri }

/-- The history entries a call list produces: one per accepted command. -/
def validEntries (calls : List AggCall) : List HistoryEntry :=
  calls.filterMap (fun c =>
    if (validateCommand c.cmd).1 then some (entryOf c) else none)

/-! ## Actuator (`src/rpi/zmq_server.py`)

The actuator's hardware effects (`GPIODriver.apply_bits`, `GPIODriver.stop`,
`time.sleep`) are modelled as an event trace.  The shared
`threading.Event` cancel signal is modelled as a function of the number of
checks performed inside `sleep_interruptible`, and as a constant Boolean at
the worker level (sufficient for the sequential properties proved here). -/

/-- A 3-bit hardware pin pattern. -/
abbrev Bits := Bool × Bool × Bool

/-- The observable actuator effects. -/
inductive Event where
  | applyBits (b : Bits)
  | stopPins
  | slept (dt : ℚ)
  | warnUnknown (tok : Str)
  | warnKey
deriving DecidableEq

/-- Loop body of `sleep_interruptible` (lines 35-40), with explicit fuel.
Returns the list of individual sleep chunks performed; `cancel k` is the
value of `cancel_event.is_set()` at the `k`-th check of this call.  The
fuel only pads the recursion: `sleepFuel` below always suffices. -/
def sleepDts : ℕ → ℚ → (ℕ → Bool) → ℕ → ℚ → List ℚ
  | 0, _, _, _, _ => []
  | fuel + 1, step, cancel, k, remaining =>
    if remaining ≤ 0 then []
    else if cancel k then []
    else
      let dt := qmin step remaining
      dt :: sleepDts fuel step cancel (k + 1) (remaining - dt)

/-- Enough fuel for `sleepDts` to run `sleep_interruptible` to completion. -/
def sleepFuel (seconds step : ℚ) : ℕ :=
  (⌈qmax 0 seconds / qmax (1 / 200) step⌉).toNat + 1

/-- Model of `sleep_interruptible(seconds, cancel_event, step)` (lines 31-40):
sleep in chunks of at most `step` (effective step `max 0.005 step`),
checking the cancel signal before each chunk.  Returns the list of sleep
chunks performed. -/
def sleepInterruptible (seconds : ℚ) (cancel : ℕ → Bool) (step : ℚ) :
    List ℚ :=
  sleepDts (sleepFuel seconds step) (qmax (1 / 200) step) cancel 0
    (qmax 0 seconds)

/-- The command kinds known to the actuator. -/
inductive MKind where
  | forward | backward | left | right | lock | unlock | stop | sleep
deriving DecidableEq

/-- Modelled from the spec: the kind table of `parser.parse_command`
(`parser.py` is not under `src/`); spec section 4.4 and the grammar of
section 6. -/
def kindOf (s : Str) : Option MKind :=
  if s = "forward".data then some .forward
  else if s = "backward".data then some .backward
  else if s = "left".data then some .left
  else if s = "right".data then some .right
  else if s = "lock".data then some .lock
  else if s = "unlock".data then some .unlock
  else if s = "stop".data then some .stop
  else if s = "sleep".data then some .sleep
  else none

/-- Value of a digit string as a natural number. -/
def natVal (s : Str) : ℕ := s.foldl (fun a c => a * 10 + (c.toNat - 48)) 0

/-- Modelled from the spec: parsing of a non-negative decimal seconds value
("number := non-negative decimal seconds", section 6; the real parser lives
in `parser.py`, which is not under `src/`). -/
def parseNum (s : Str) : Option ℚ :=
  let intPart := s.takeWhile Char.isDigit
  let rest := s.dropWhile Char.isDigit
  match rest with
  | [] => if intPart = [] then none else some (natVal intPart)
  | '.' :: frac =>
    if frac.all Char.isDigit && !(intPart = [] && frac = []) then
      some (natVal intPart + natVal frac / 10 ^ frac.length)
    else none
  | _ => none

/-- Modelled from the spec: `parser.parse_command(token)` (`parser.py` is
not under `src/`); spec section 4.4: split on whitespace, the first field
lowercased must be a known kind, an optional second field must parse as a
non-negative number, the colon form `kind:value` is equivalent to
`kind value`, and any parse failure yields `null`. -/
def parseCommand (tok : Str) : Option (MKind × Option ℚ) :=
  match splitWs tok with
  | [f] =>
    let b := pyLower f
    if ':' ∈ b then
      match kindOf (beforeColon b), parseNum (afterColon b) with
      | some k, some d => some (k, some d)
      | _, _ => none
    else (kindOf b).map (fun k => (k, none))
  | [f, d] =>
    match kindOf (pyLower f), parseNum d with
    | some k, some q => some (k, some q)
    | _, _ => none
  | _ => none

/-- Split a string on `';'` (keeping empty pieces, like Python
`str.split(";")`). -/
def splitOnSemi : Str → List Str
  | [] => [[]]
  | c :: cs =>
    if c = ';' then [] :: splitOnSemi cs
    else
      match splitOnSemi cs with
      | [] => [[c]]
      | w :: ws => (c :: w) :: ws

/-- Modelled from the spec: `parser.split_sequence(text)` (`parser.py` is
not under `src/`); spec section 4.4: split on `;`, trim each element, drop
empties. -/
def splitSequence (t : Str) : List Str :=
  ((splitOnSemi t).map stripList).filter (fun w => w ≠ [])

/-- Modelled from the spec: `states.DEFAULT_STEP_DURATION` (`states.py` is
not under `src/`); spec section 4.3 gives the typical default 0.5 s. -/
def defaultStepDuration : ℚ := 1 / 2

/-- Modelled from the spec: `states.PAUSE_AFTER_SEQ_SECONDS` (`states.py`
is not under `src/`); spec section 4.3: post-sequence hold, default at
most 1 s. -/
def pauseAfterSeq : ℚ := 1

/-- Modelled from the spec: the `states.STATES` pin table (`states.py` is
not under `src/`); the pin-state table of spec section 6.  `sleep` has no
pin pattern (it is handled before the table lookup). -/
def stateBits : MKind → Option Bits
  | .forward => some (false, false, true)
  | .backward => some (false, true, false)
  | .left => some (false, true, true)
  | .right => some (true, false, false)
  | .lock => some (true, false, true)
  | .unlock => some (true, true, false)
  | .stop => some (false, false, false)
  | .sleep => none

/-- Model of `execute_token` (lines 44-74): run one token with interrupt support,
returning the trace of hardware effects. -/
def executeToken (tok : Str) (cancel : Bool) : List Event :=
  if cancel then []
  else
    match parseCommand tok with
    | none => [Event.warnUnknown tok]
    | some (key, durOpt) =>
      if key = MKind.sleep then
        let dur := durOpt.getD defaultStepDuration
        (sleepInterruptible dur (fun _ => cancel) (1 / 20)).map Event.slept
      else
        let dur := durOpt.getD defaultStepDuration
        match stateBits key with
        | none => [Event.warnKey]
        | some bits =>
          Event.applyBits bits ::
            (sleepInterruptible dur (fun _ => cancel) (1 / 20)).map
              Event.slept ++
            (if cancel then [] else [Event.stopPins])

/-- Model of `execute_sequence` (lines 78-97): run every token of a `;`-sequence,
then stop the car and (when not cancelled) hold the stop pattern. -/
def executeSequence (seq : Str) (cancel : Bool) : List Event :=
  let tokens := splitSequence seq
  (if cancel then []
   else tokens.foldr (fun t acc => executeToken t cancel ++ acc) []) ++
  [Event.stopPins] ++
  (if cancel then []
   else (sleepInterruptible pauseAfterSeq (fun _ => cancel) (1 / 20)).map
     Event.slept)

/-- Model of `motion_worker` (lines 101-122): run a single command or a sequence,
always asserting the stop pattern at the end (`finally: driver.stop()`). -/
def motionWorker (cmdStr : Str) (isSeq : Bool) (cancel : Bool) :
    List Event :=
  (if isSeq then executeSequence cmdStr cancel
   else executeToken cmdStr cancel ++
     (if cancel then [] else [Event.stopPins])) ++
  [Event.stopPins]

/-- The trace of `stop_motion` (lines 126-151): the cancel signal is set,
the worker joined, and `driver.stop()` asserts the stop pin pattern. -/
def stopMotionEvents : List Event := [Event.stopPins]

/-- What `handle_payload` decides to do after building its reply. -/
inductive MotionAction where
  | idle
  | stop
  | start (cmd : Str) (isSeq : Bool)
deriving DecidableEq

/-- The events of dispatching an action: `start_motion` (lines 154-175)
first runs `stop_motion`, then the new worker executes (modelled to
completion, uncancelled). -/
def actionEvents : MotionAction → List Event
  | .idle => []
  | .stop => stopMotionEvents
  | .start c isSeq => stopMotionEvents ++ motionWorker c isSeq false

/-- The reply dictionary built by `handle_payload`. -/
structure Reply where
  ok : Bool
  mode : Option Str
  cmd : Option Str
  err : Option Str
deriving DecidableEq

/-- Outcome of the `json.loads` attempt in `handle_payload` (lines
189-199): either the payload is not a JSON object with a `"cmd"` field
(the text is kept), or it is, yielding a command string and a mode
(`"auto"` when the `"mode"` field is absent).  The JSON decoder itself is
abstracted as this input. -/
inductive Decoded where
  | text : Decoded
  | json : Str → Str → Decoded

/-- The `cmd_str` selected by `handle_payload` for a given decode outcome. -/
def decodedCmd (text : Str) : Decoded → Str
  | .text => text
  | .json c _ => c

/-- The `mode` selected by `handle_payload` for a given decode outcome. -/
def decodedMode : Decoded → Str
  | .text => "auto".data
  | .json _ m => m

/-- Model of `handle_payload` (lines 179-229): reply construction and the motion
action taken.  `payload` is the raw request text; `dec` the outcome of the
JSON-decode attempt. -/
def handlePayload (payload : Str) (dec : Decoded) : Reply × MotionAction :=
  let text := stripList payload
  if text = [] then
    ({ ok := false, mode := none, cmd := none,
       err := some "empty_payload".data }, MotionAction.idle)
  else
    let cmdStr := decodedCmd text dec
    let mode := decodedMode dec
    let cmdLower := pyLower (stripList cmdStr)
    if cmdLower = "stop".data ∨ cmdLower = "s".data ∨
        cmdLower = "seq stop".data then
      ({ ok := true, mode := some "stop".data, cmd := some "stop".data,
         err := none }, MotionAction.stop)
    else if mode = "seq".data then
      let c := if startsWithSeq cmdLower then stripList (cmdStr.drop 4)
               else cmdStr
      ({ ok := true, mode := some "seq".data, cmd := some c, err := none },
       MotionAction.start c true)
    else if mode = "single".data then
      ({ ok := true, mode := some "single".data, cmd := some cmdStr,
         err := none }, MotionAction.start cmdStr false)
    else
      if startsWithSeq cmdLower then
        let c := stripList (cmdStr.drop 4)
        ({ ok := true, mode := some "seq".data, cmd := some c,
           err := none }, MotionAction.start c true)
      else
        ({ ok := true, mode := some "single".data, cmd := some cmdStr,
           err := none }, MotionAction.start cmdStr false)

/-! ## Basic lemmas about the aggregator state transition -/

theorem lookupAssoc_bumpAssoc (l : List (Str × ℕ)) (k : Str) :
    lookupAssoc (bumpAssoc l k) k = lookupAssoc l k + 1 := by
  induction l with
  | nil => simp [bumpAssoc, lookupAssoc]
  | cons p rest ih =>
    obtain ⟨k', v⟩ := p
    by_cases h : k' = k <;> simp [bumpAssoc, lookupAssoc, h, ih]

theorem sumAssoc_bumpAssoc (l : List (Str × ℕ)) (k : Str) :
    sumAssoc (bumpAssoc l k) = sumAssoc l + 1 := by
  induction l with
  | nil => simp [bumpAssoc, sumAssoc]
  | cons p rest ih =>
    obtain ⟨k', v⟩ := p
    by_cases h : k' = k <;> simp [bumpAssoc, sumAssoc, h] <;>
      simp [sumAssoc] at ih <;> omega

theorem lastN_length (cap : ℕ) (l : List α) :
    (lastN cap l).length = min cap l.length := by
  simp [lastN]

theorem lastN_merge (cap : ℕ) (a t : List α) :
    lastN cap (lastN cap a ++ t) = lastN cap (a ++ t) := by
  unfold lastN
  rw [List.reverse_append, List.reverse_reverse, List.reverse_append]
  rw [List.take_append_eq_append_take, List.take_append_eq_append_take]
  rw [List.take_take, List.length_reverse,
    inf_of_le_left (Nat.sub_le _ _)]

theorem foldl_histAppend (cap : ℕ) (es : List HistoryEntry) :
    ∀ acc : List HistoryEntry,
      es.foldl (histAppend cap) (lastN cap acc) = lastN cap (acc ++ es) := by
  induction es with
  | nil => intro acc; simp
  | cons e es ih =>
    intro acc
    have h1 : histAppend cap (lastN cap acc) e = lastN cap (acc ++ [e]) := by
      unfold histAppend; rw [lastN_merge]
    simp only [List.foldl_cons, h1, ih (acc ++ [e]), List.append_assoc,
      List.singleton_append]

theorem validateCommand_snd (cmd : Str) :
    (validateCommand cmd).2 =
      if (validateCommand cmd).1 then stripList cmd else [] := by
  by_cases h0 : cmd = []
  · simp [validateCommand, h0]
  · by_cases h1 : startsWithSeq (stripList cmd)
    · simp [validateCommand, h0, h1]
    · cases hs : splitWs (stripList cmd) with
      | nil => simp [validateCommand, h0, h1, hs]
      | cons p rest =>
        by_cases h2 : pyLower p ∈ allowedCommands
        · simp [validateCommand, h0, h1, hs, h2]
        · by_cases h3 : ':' ∈ pyLower p
          · by_cases h4 : beforeColon (pyLower p) ∈ allowedCommands <;>
              simp [validateCommand, h0, h1, hs, h2, h3, h4]
          · simp [validateCommand, h0, h1, hs, h2, h3]

theorem processCommand_totalCommands (st : AggState) (c s : Str) (p n : ℕ) :
    (processCommand st c s p n).2.totalCommands = st.totalCommands + 1 := by
  by_cases h : (validateCommand c).1 <;> simp [processCommand, h]

theorem processCommand_bySource (st : AggState) (c s : Str) (p n : ℕ) :
    (processCommand st c s p n).2.bySource = bumpAssoc st.bySource s := by
  by_cases h : (validateCommand c).1 <;> simp [processCommand, h]

theorem processCommand_maxHistory (st : AggState) (c s : Str) (p n : ℕ) :
    (processCommand st c s p n).2.maxHistory = st.maxHistory := by
  by_cases h : (validateCommand c).1 <;> simp [processCommand, h]

theorem processCommand_errors (st : AggState) (c s : Str) (p n : ℕ) :
    (processCommand st c s p n).2.errors =
      st.errors + (if (validateCommand c).1 then 0 else 1) := by
  by_cases h : (validateCommand c).1 <;> simp [processCommand, h]

theorem processCommand_fst (st : AggState) (c s : Str) (p n : ℕ) :
    (processCommand st c s p n).1.1 = (validateCommand c).1 := by
  by_cases h : (validateCommand c).1 <;> simp [processCommand, h]

theorem processCommand_history (st : AggState) (c s : Str) (p n : ℕ) :
    (processCommand st c s p n).2.history =
      if (validateCommand c).1 then
        histAppend st.maxHistory st.history
          { timestamp := n, raw := c, processed := (validateCommand c).2,
            source := s, priority := p }
      else st.history := by
  by_cases h : (validateCommand c).1 <;> simp [processCommand, h]

theorem runAgg_cons (st : AggState) (c : AggCall) (cs : List AggCall) :
    runAgg st (c :: cs) =
      runAgg (processCommand st c.cmd c.src c.pri c.now).2 cs := rfl

theorem runAgg_total_eq_sum (calls : List AggCall) :
    ∀ st : AggState, st.totalCommands = sumAssoc st.bySource →
      (runAgg st calls).totalCommands =
        sumAssoc (runAgg st calls).bySource := by
  induction calls with
  | nil => intro st h; simpa [runAgg] using h
  | cons c cs ih =>
    intro st h
    rw [runAgg_cons]
    exact ih _ (by
      rw [processCommand_totalCommands, processCommand_bySource,
        sumAssoc_bumpAssoc, h])

theorem validEntries_cons (c : AggCall) (cs : List AggCall) :
    validEntries (c :: cs) =
      (if (validateCommand c.cmd).1 then [entryOf c] else []) ++
        validEntries cs := by
  simp only [validEntries, List.filterMap_cons]
  split <;> simp_all [validEntries]

theorem runAgg_history_inv (cap : ℕ) (calls : List AggCall) :
    ∀ (st : AggState) (a : List HistoryEntry), st.maxHistory = cap →
      st.history = lastN cap a →
      (runAgg st calls).history = lastN cap (a ++ validEntries calls) := by
  induction calls with
  | nil => intro st a h1 h2; simpa [runAgg, validEntries] using h2
  | cons c cs ih =>
    intro st a h1 h2
    rw [runAgg_cons]
    by_cases hv : (validateCommand c.cmd).1
    · have he : (processCommand st c.cmd c.src c.pri c.now).2.history =
          lastN cap (a ++ [entryOf c]) := by
        rw [processCommand_history, if_pos hv, h2, h1]
        unfold histAppend
        rw [lastN_merge]
        rfl
      rw [ih _ (a ++ [entryOf c])
          (by rw [processCommand_maxHistory]; exact h1) he,
        validEntries_cons, if_pos hv, List.append_assoc]
    · have he : (processCommand st c.cmd c.src c.pri c.now).2.history =
          lastN cap a := by
        rw [processCommand_history, if_neg hv]; exact h2
      rw [ih _ a (by rw [processCommand_maxHistory]; exact h1) he,
        validEntries_cons, if_neg hv, List.nil_append]

theorem processCommand_msg (st : AggState) (c s : Str) (p n : ℕ) :
    (processCommand st c s p n).1.2.2 =
      if (validateCommand c).1 then "Command processed successfully".data
      else "Invalid command: ".data ++ c := by
  by_cases h : (validateCommand c).1 <;> simp [processCommand, h]

theorem processCommand_processed (st : AggState) (c s : Str) (p n : ℕ) :
    (processCommand st c s p n).1.2.1 =
      if (validateCommand c).1 then some (validateCommand c).2 else none := by
  by_cases h : (validateCommand c).1 <;> simp [processCommand, h]

/-! ## Claim-level statement of the validation rule (C3)

`claimAcceptsB` is written after the words of the specification's
validation rule, to be compared with `validateCommand`, which is
translated from the source. -/

/-- The acceptance condition as the specification states it: the stripped
command begins with the literal `"seq "`, or its first
whitespace-separated field (possibly in `head:value` colon form,
lowercased) has its head in the allowed set. -/
def claimAcceptsB (cmd : Str) : Bool :=
  let n := stripList cmd
  startsWithSeq n ||
    match splitWs n with
    | [] => false
    | f :: _ =>
      let b := pyLower f
      decide (b ∈ allowedCommands) ||
        (decide (':' ∈ b) && decide (beforeColon b ∈ allowedCommands))

theorem validateCommand_fst_eq_claim (cmd : Str) :
    (validateCommand cmd).1 = claimAcceptsB cmd := by
  by_cases h0 : cmd = []
  · subst h0; decide
  · by_cases h1 : startsWithSeq (stripList cmd)
    · simp [validateCommand, claimAcceptsB, h0, h1]
    · cases hs : splitWs (stripList cmd) with
      | nil => simp [validateCommand, claimAcceptsB, h0, h1, hs]
      | cons p rest =>
        by_cases h2 : pyLower p ∈ allowedCommands
        · simp [validateCommand, claimAcceptsB, h0, h1, hs, h2]
        · by_cases h3 : ':' ∈ pyLower p
          · by_cases h4 : beforeColon (pyLower p) ∈ allowedCommands <;>
              simp [validateCommand, claimAcceptsB, h0, h1, hs, h2, h3, h4]
          · simp [validateCommand, claimAcceptsB, h0, h1, hs, h2, h3]

/-! ## Claim theorems for the aggregator -/

/-- C2 (corrected): on every `process_command` call, `by_source[source]`
and `total_commands` are incremented unconditionally, while `errors` is
incremented exactly when the command is rejected — so a rejected command
increments both `by_source[source]` and `errors`. -/
theorem C2_counters_per_call (st : AggState) (cmd src : Str) (pri now : ℕ) :
    lookupAssoc (processCommand st cmd src pri now).2.bySource src =
        lookupAssoc st.bySource src + 1 ∧
    (processCommand st cmd src pri now).2.errors =
        st.errors +
          (if (processCommand st cmd src pri now).1.1 then 0 else 1) ∧
    (processCommand st cmd src pri now).2.totalCommands =
        st.totalCommands + 1 := by
  refine ⟨?_, ?_, processCommand_totalCommands st cmd src pri now⟩
  · rw [processCommand_bySource, lookupAssoc_bumpAssoc]
  · rw [processCommand_errors, processCommand_fst]

/-- C2 counterexample: the rejected command `"teleport 3"` increments
`by_source["manual"]` as well as `errors`, so it is not the case that
exactly one of the two counters increments per call. -/
theorem C2_counterexample :
    (processCommand defaultAgg "teleport 3".data "manual".data 5 0).1.1 =
        false ∧
    (processCommand defaultAgg "teleport 3".data "manual".data 5 0).2.bySource
        = [("manual".data, 1)] ∧
    (processCommand defaultAgg "teleport 3".data "manual".data 5 0).2.errors
        = 1 := by decide

/-- C3 (amended): `process_command` accepts a command exactly when the
spec-level condition `claimAcceptsB` holds (stripped command begins with
`"seq "`, or the first whitespace field — possibly `head:value` colon
form — has an allowed head, the first token being lowercased for the
check); empty and whitespace-only commands are rejected, and a rejected
command produces the message `"Invalid command: <raw>"`, which begins
with `"Invalid command"`. -/
theorem C3_acceptance_condition (st : AggState) (cmd src : Str)
    (pri now : ℕ) :
    ((processCommand st cmd src pri now).1.1 = claimAcceptsB cmd) ∧
    ((processCommand st cmd src pri now).1.2.2 =
      if claimAcceptsB cmd then "Command processed successfully".data
      else "Invalid command: ".data ++ cmd) ∧
    ("Invalid command".data.isPrefixOf ("Invalid command: ".data ++ cmd)
      = true) := by
  refine ⟨?_, ?_, rfl⟩
  · rw [processCommand_fst, validateCommand_fst_eq_claim]
  · rw [processCommand_msg, validateCommand_fst_eq_claim]

/-- C3 counterexample: the rejected command `"teleport 3"` is answered
with the message `"Invalid command: teleport 3"`, not with the message
`"Invalid command"`; moreover `"FORWARD"` is accepted although its first
whitespace-separated field is not literally one of the listed words (the
code compares the lowercased field). -/
theorem C3_counterexample :
    (processCommand defaultAgg "teleport 3".data "manual".data 5 0).1.1 =
        false ∧
    (processCommand defaultAgg "teleport 3".data "manual".data 5 0).1.2.2 ≠
        "Invalid command".data ∧
    (processCommand defaultAgg "FORWARD".data "manual".data 5 0).1.1 =
        true ∧
    "FORWARD".data ∉ allowedCommands := by decide

/-- C4 (amended): for an accepted command, the normalized form returned by
`process_command` (and the one recorded in the history entry) is the raw
command with surrounding whitespace stripped, kept verbatim otherwise;
lowercasing of the first token happens only inside validation. -/
theorem C4_normalized_is_strip (st : AggState) (cmd src : Str)
    (pri now : ℕ) :
    ((processCommand st cmd src pri now).1.2.1 =
      if (validateCommand cmd).1 then some (stripList cmd) else none) ∧
    ((processCommand st cmd src pri now).2.history =
      if (validateCommand cmd).1 then
        histAppend st.maxHistory st.history
          { timestamp := now, raw := cmd, processed := stripList cmd,
            source := src, priority := pri }
      else st.history) := by
  have hsnd := validateCommand_snd cmd
  by_cases h : (validateCommand cmd).1
  · rw [if_pos h] at hsnd
    constructor
    · rw [processCommand_processed, if_pos h, if_pos h, hsnd]
    · rw [processCommand_history, if_pos h, if_pos h, hsnd]
  · constructor
    · rw [processCommand_processed, if_neg h, if_neg h]
    · rw [processCommand_history, if_neg h, if_neg h]

/-- C4 counterexample: the accepted command `"FORWARD 2"` is returned as
`"FORWARD 2"`, not as `"forward 2"` (its stripped form with the first
token lowercased), so the first token is not lowercased in the returned
normalized command. -/
theorem C4_counterexample :
    (processCommand defaultAgg "FORWARD 2".data "manual".data 5 0).1.2.1 =
        some "FORWARD 2".data ∧
    "FORWARD 2".data ≠ "forward 2".data := by decide

/-- C5 (confirmed): starting from a fresh aggregator with history capacity
`cap`, after any call list the history holds exactly the last `cap`
accepted entries in insertion order; its length is the minimum of `cap`
and the number of accepted commands, so it never exceeds the capacity and
the oldest entries are evicted first. -/
theorem C5_history_bounded (cap : ℕ) (calls : List AggCall) :
    (runAgg (initAgg cap) calls).history = lastN cap (validEntries calls) ∧
    (runAgg (initAgg cap) calls).history.length =
      min cap (validEntries calls).length := by
  have h := runAgg_history_inv cap calls (initAgg cap) [] rfl
    (by simp [initAgg, lastN])
  rw [List.nil_append] at h
  exact ⟨h, by rw [h, lastN_length]⟩

/-- C9 (confirmed): every `process_command` call increments both
`total_commands` and the caller's `by_source` counter exactly once,
whether or not the command is accepted; consequently in every state
reachable from a fresh aggregator, `total_commands` equals the sum of all
`by_source` counters. -/
theorem C9_total_eq_sum_by_source :
    (∀ (st : AggState) (cmd src : Str) (pri now : ℕ),
      (processCommand st cmd src pri now).2.totalCommands =
          st.totalCommands + 1 ∧
      lookupAssoc (processCommand st cmd src pri now).2.bySource src =
          lookupAssoc st.bySource src + 1) ∧
    (∀ calls : List AggCall,
      (runAgg defaultAgg calls).totalCommands =
        sumAssoc (runAgg defaultAgg calls).bySource) := by
  constructor
  · intro st cmd src pri now
    exact ⟨processCommand_totalCommands st cmd src pri now,
      by rw [processCommand_bySource, lookupAssoc_bumpAssoc]⟩
  · intro calls
    exact runAgg_total_eq_sum calls defaultAgg
      (by simp [defaultAgg, initAgg, sumAssoc])

/-! ## String lemmas for the colon-form and space-form commands (C6) -/

theorem stripList_sep (kind value : Str) (sep : Char) (hk : kind ≠ [])
    (hks : ∀ c ∈ kind, isPySpace c = false) (hv : value ≠ [])
    (hvs : ∀ c ∈ value, isPySpace c = false) :
    stripList (kind ++ sep :: value) = kind ++ sep :: value := by
  rcases List.eq_nil_or_concat value with rfl | ⟨vi, vl, rfl⟩
  · exact absurd rfl hv
  · simp only [List.concat_eq_append] at hv hvs ⊢
    cases kind with
    | nil => exact absurd rfl hk
    | cons k0 ks =>
      have h0 : isPySpace k0 = false := hks k0 (by simp)
      have hl : isPySpace vl = false := hvs vl (by simp)
      unfold stripList
      have e1 : (k0 :: ks) ++ sep :: (vi ++ [vl]) =
          k0 :: (ks ++ sep :: (vi ++ [vl])) := rfl
      have hd1 : List.dropWhile isPySpace
          (k0 :: (ks ++ sep :: (vi ++ [vl]))) =
          k0 :: (ks ++ sep :: (vi ++ [vl])) := by
        rw [List.dropWhile_cons, h0]; simp
      rw [e1, hd1]
      have e2 : k0 :: (ks ++ sep :: (vi ++ [vl])) =
          (k0 :: (ks ++ sep :: vi)) ++ [vl] := by simp
      rw [e2, List.reverse_append, List.reverse_singleton,
        List.singleton_append]
      have hd2 : List.dropWhile isPySpace
          (vl :: (k0 :: (ks ++ sep :: vi)).reverse) =
          vl :: (k0 :: (ks ++ sep :: vi)).reverse := by
        rw [List.dropWhile_cons, hl]; simp
      rw [hd2]
      simp

theorem splitWsAux_append_word (a : Str)
    (ha : ∀ c ∈ a, isPySpace c = false) :
    ∀ (rest w : Str), splitWsAux (a ++ rest) w =
      splitWsAux rest (a.reverse ++ w) := by
  induction a with
  | nil => intro rest w; simp
  | cons c cs ih =>
    intro rest w
    have hc : isPySpace c = false := ha c (by simp)
    have ih' := ih (fun d hd => ha d (by simp [hd])) rest (c :: w)
    simp only [List.cons_append, splitWsAux, hc, Bool.false_eq_true,
      if_false, ih', List.reverse_cons, List.append_assoc,
      List.singleton_append, List.append_eq, List.nil_append]

theorem splitWs_word (a : Str) (hne : a ≠ [])
    (ha : ∀ c ∈ a, isPySpace c = false) : splitWs a = [a] := by
  unfold splitWs
  rw [← List.append_nil a, splitWsAux_append_word a ha [] []]
  simp [splitWsAux, hne]

theorem splitWs_word_sep (a b : Str) (hne : a ≠ [])
    (ha : ∀ c ∈ a, isPySpace c = false) :
    splitWs (a ++ ' ' :: b) = a :: splitWs b := by
  unfold splitWs
  rw [splitWsAux_append_word a ha (' ' :: b) []]
  have hsp : isPySpace ' ' = true := rfl
  simp [splitWsAux, hsp, hne]

theorem beforeColon_append (a b : Str)
    (ha : ∀ c ∈ a, (c != ':') = true) :
    beforeColon (a ++ ':' :: b) = a := by
  induction a with
  | nil => simp [beforeColon, List.takeWhile_cons]
  | cons c cs ih =>
    have hc := ha c (by simp)
    have ih' := ih (fun d hd => ha d (by simp [hd]))
    simp only [List.cons_append, beforeColon, List.takeWhile_cons, hc,
      if_true]
    simpa [beforeColon] using ih'

theorem not_mem_allowed_of_colon (b : Str) (hb : ':' ∈ b) :
    b ∉ allowedCommands := by
  intro hmem
  simp only [allowedCommands, List.mem_cons, List.not_mem_nil,
    or_false] at hmem
  rcases hmem with rfl | rfl | rfl | rfl | rfl | rfl | rfl | rfl <;>
    exact absurd hb (by decide)

theorem isPrefixOf_append_false (p a b : Str) (hlen : p.length ≤ a.length)
    (hpa : p.isPrefixOf a = false) : p.isPrefixOf (a ++ b) = false := by
  by_contra hcon
  rw [Bool.not_eq_false, List.isPrefixOf_iff_prefix] at hcon
  have hp : p = (a ++ b).take p.length := List.prefix_iff_eq_take.mp hcon
  rw [List.take_append_eq_append_take,
    Nat.sub_eq_zero_of_le hlen, List.take_zero, List.append_nil] at hp
  have : p <+: a := hp ▸ List.take_prefix p.length a
  rw [← List.isPrefixOf_iff_prefix] at this
  exact absurd this (by simp [hpa])

theorem validate_colon_space (kind value : Str)
    (hmem : kind ∈ allowedCommands) (hlow : pyLower kind = kind)
    (hne : kind ≠ []) (hns : ∀ c ∈ kind, isPySpace c = false)
    (hnc : ∀ c ∈ kind, (c != ':') = true)
    (hseqc : startsWithSeq (kind ++ ':' :: value) = false)
    (hseqs : startsWithSeq (kind ++ ' ' :: value) = false)
    (hv : value ≠ []) (hvs : ∀ c ∈ value, isPySpace c = false) :
    validateCommand (kind ++ ':' :: value) = (true, kind ++ ':' :: value) ∧
    validateCommand (kind ++ ' ' :: value) =
      (true, kind ++ ' ' :: value) := by
  have hnsC : ∀ c ∈ kind ++ ':' :: value, isPySpace c = false := by
    intro c hc
    rcases List.mem_append.mp hc with h | h
    · exact hns c h
    · rcases List.mem_cons.mp h with rfl | h
      · rfl
      · exact hvs c h
  have hneC : kind ++ ':' :: value ≠ [] := by simp
  have hneS : kind ++ ' ' :: value ≠ [] := by simp
  have hstripC := stripList_sep kind value ':' hne hns hv hvs
  have hstripS := stripList_sep kind value ' ' hne hns hv hvs
  have hbase : pyLower (kind ++ ':' :: value) =
      kind ++ ':' :: pyLower value := by
    have h1 : List.map lowerChar kind = kind := hlow
    have h2 : lowerChar ':' = ':' := rfl
    simp [pyLower, h1, h2]
  have hcol : ':' ∈ pyLower (kind ++ ':' :: value) := by
    rw [hbase]; exact List.mem_append_right _ (List.mem_cons_self _ _)
  have hnotmem : pyLower (kind ++ ':' :: value) ∉ allowedCommands :=
    not_mem_allowed_of_colon _ hcol
  have hbc : beforeColon (pyLower (kind ++ ':' :: value)) = kind := by
    rw [hbase]; exact beforeColon_append kind (pyLower value) hnc
  have hsplitC := splitWs_word (kind ++ ':' :: value) hneC hnsC
  have hsplitS : splitWs (kind ++ ' ' :: value) = [kind, value] := by
    rw [splitWs_word_sep kind value hne hns, splitWs_word value hv hvs]
  constructor
  · simp [validateCommand, hneC, hstripC, hseqc, hsplitC, hnotmem, hcol,
      hbc, hmem]
  · simp [validateCommand, hneS, hstripS, hseqs, hsplitS, hlow, hmem]

/-- C6 (amended): for every kind in the allowed set and every nonempty
whitespace-free duration value, both the colon form `kind:value` and the
space form `kind value` are accepted by the aggregator's validation, each
with its own text as the normalized intent — so the two submissions are
equivalent in acceptance but their normalized intents are textually
distinct, not identical. -/
theorem C6_colon_space_equivalence (kind value : Str)
    (hmem : kind ∈ allowedCommands) (hv : value ≠ [])
    (hvs : ∀ c ∈ value, isPySpace c = false) :
    validateCommand (kind ++ ':' :: value) = (true, kind ++ ':' :: value) ∧
    validateCommand (kind ++ ' ' :: value) = (true, kind ++ ' ' :: value) ∧
    kind ++ ':' :: value ≠ kind ++ ' ' :: value := by
  simp only [allowedCommands, List.mem_cons, List.not_mem_nil,
    or_false] at hmem
  rcases hmem with rfl | rfl | rfl | rfl | rfl | rfl | rfl | rfl <;>
    exact ⟨(validate_colon_space _ _ (by decide) (by decide) (by decide)
        (by decide) (by decide)
        (isPrefixOf_append_false _ _ _ (by decide) (by decide))
        (isPrefixOf_append_false _ _ _ (by decide) (by decide))
        hv hvs).1,
      (validate_colon_space _ _ (by decide) (by decide) (by decide)
        (by decide) (by decide)
        (isPrefixOf_append_false _ _ _ (by decide) (by decide))
        (isPrefixOf_append_false _ _ _ (by decide) (by decide))
        hv hvs).2,
      by simp⟩

/-- Witness for C6: the pair `left:1.5` / `left 1.5` instantiates the
amended claim. -/
theorem C6_witness :
    ("left".data ∈ allowedCommands ∧ "1.5".data ≠ [] ∧
      ∀ c ∈ "1.5".data, isPySpace c = false) ∧
    (validateCommand ("left".data ++ ':' :: "1.5".data) =
        (true, "left".data ++ ':' :: "1.5".data) ∧
      validateCommand ("left".data ++ ' ' :: "1.5".data) =
        (true, "left".data ++ ' ' :: "1.5".data) ∧
      "left".data ++ ':' :: "1.5".data ≠
        "left".data ++ ' ' :: "1.5".data) :=
  ⟨by decide, C6_colon_space_equivalence "left".data "1.5".data
    (by decide) (by decide) (by decide)⟩

/-- C6 counterexample: `left:1.5` and `left 1.5` are both accepted, but
the normalized intents produced by `process_command` are `"left:1.5"` and
`"left 1.5"`, which are not identical. -/
theorem C6_counterexample :
    (processCommand defaultAgg "left:1.5".data "manual".data 5 0).1.2.1 =
        some "left:1.5".data ∧
    (processCommand defaultAgg "left 1.5".data "manual".data 5 0).1.2.1 =
        some "left 1.5".data ∧
    "left:1.5".data ≠ "left 1.5".data := by decide

/-! ## Lemmas about `sleep_interruptible` (C7) -/

theorem qmin_le_left (s r : ℚ) : qmin s r ≤ s := by
  unfold qmin
  split
  · exact le_refl s
  · exact le_of_not_le (by assumption)

theorem sleepDts_sum_zero (s : ℚ) (m k : ℕ) :
    (sleepDts m s (fun _ => false) k 0).sum = 0 := by
  cases m <;> simp [sleepDts]

theorem sleepDts_sum (s : ℚ) (hs : 0 < s) :
    ∀ (fuel k : ℕ) (r : ℚ), 0 ≤ r → (⌈r / s⌉).toNat < fuel →
      (sleepDts fuel s (fun _ => false) k r).sum = r := by
  intro fuel
  induction fuel with
  | zero => intro k r h0 hf; exact absurd hf (by omega)
  | succ n ih =>
    intro k r h0 hf
    by_cases hr : r ≤ 0
    · have h00 : r = 0 := le_antisymm hr h0
      rw [h00]
      exact sleepDts_sum_zero s (n + 1) k
    · push_neg at hr
      have hceil1 : 1 ≤ ⌈r / s⌉ := Int.ceil_pos.mpr (div_pos hr hs)
      by_cases hsmall : r ≤ s
      · have hdt : qmin s r = r := by
          unfold qmin
          split
          · exact le_antisymm (by assumption) hsmall
          · rfl
        simp only [sleepDts, not_le.mpr hr, if_false, Bool.false_eq_true,
          List.sum_cons, hdt, sub_self]
        rw [sleepDts_sum_zero]
        ring
      · push_neg at hsmall
        have hdt : qmin s r = s := by
          unfold qmin
          split
          · rfl
          · exact absurd (le_of_lt hsmall) (by assumption)
        have h0' : (0:ℚ) ≤ r - s := by linarith
        have hf' : (⌈(r - s) / s⌉).toNat < n := by
          have hdiv : (r - s) / s = r / s - 1 := by
            rw [sub_div, div_self (ne_of_gt hs)]
          rw [hdiv, Int.ceil_sub_one]
          omega
        simp only [sleepDts, not_le.mpr hr, if_false, Bool.false_eq_true,
          List.sum_cons, hdt]
        rw [ih k.succ (r - s) h0' hf']
        ring

theorem sleepDts_mem_le (s : ℚ) :
    ∀ (fuel k : ℕ) (c : ℕ → Bool) (r : ℚ),
      ∀ dt ∈ sleepDts fuel s c k r, dt ≤ s := by
  intro fuel
  induction fuel with
  | zero => intro k c r dt h; simp [sleepDts] at h
  | succ n ih =>
    intro k c r dt h
    by_cases hr : r ≤ 0
    · simp [sleepDts, hr] at h
    · by_cases hc : c k = true
      · simp [sleepDts, hr, hc] at h
      · simp only [sleepDts] at h
        rw [if_neg hr, if_neg hc] at h
        rcases List.mem_cons.mp h with h1 | h1
        · exact h1 ▸ qmin_le_left s r
        · exact ih k.succ c (r - qmin s r) dt h1

theorem qmax_characterize : qmax (1/200) (1/20) = (1/20 : ℚ) := by
  unfold qmax
  rw [if_pos (by norm_num)]

theorem sleepInterruptible_cancel_entry (D step : ℚ) (c : ℕ → Bool)
    (hc : c 0 = true) : sleepInterruptible D c step = [] := by
  unfold sleepInterruptible sleepFuel
  by_cases hr : qmax 0 D ≤ 0 <;> simp [sleepDts, hr, hc]

/-- C7 (confirmed): over exact arithmetic, for every non-negative
duration `D`, `sleep_interruptible(D, cancel)` with the default 50 ms
step sleeps in chunks of at most 50 ms; when the cancel signal is never
set the chunks sum to exactly `D`, and when the cancel signal is set at a
check the call (resp. the remaining loop) performs no further sleeping —
in particular it sleeps nothing when cancel is already set on entry. -/
theorem C7_sleep_interruptible (D : ℚ) (hD : 0 ≤ D) :
    ((sleepInterruptible D (fun _ => false) (1/20)).sum = D) ∧
    (∀ dt ∈ sleepInterruptible D (fun _ => false) (1/20), dt ≤ 1/20) ∧
    (∀ c : ℕ → Bool, c 0 = true → sleepInterruptible D c (1/20) = []) ∧
    (∀ (c : ℕ → Bool) (k m : ℕ) (s r : ℚ), c k = true →
      sleepDts (m + 1) s c k r = []) := by
  have hmax0 : qmax 0 D = D := by unfold qmax; rw [if_pos hD]
  refine ⟨?_, ?_, ?_, ?_⟩
  · unfold sleepInterruptible sleepFuel
    rw [hmax0, qmax_characterize]
    exact sleepDts_sum (1/20) (by norm_num) _ 0 D hD (by omega)
  · intro dt hdt
    unfold sleepInterruptible at hdt
    rw [qmax_characterize] at hdt
    exact sleepDts_mem_le (1/20) _ 0 (fun _ => false) (qmax 0 D) dt hdt
  · intro c hc
    exact sleepInterruptible_cancel_entry D (1/20) c hc
  · intro c k m s r hc
    by_cases hr : r ≤ 0 <;> simp [sleepDts, hr, hc]

/-- Witness for C7 at `D = 3/2` seconds. -/
theorem C7_witness :
    (0:ℚ) ≤ 3/2 ∧
    (((sleepInterruptible (3/2) (fun _ => false) (1/20)).sum = 3/2) ∧
      (∀ dt ∈ sleepInterruptible (3/2) (fun _ => false) (1/20),
        dt ≤ 1/20) ∧
      (∀ c : ℕ → Bool, c 0 = true →
        sleepInterruptible (3/2) c (1/20) = []) ∧
      (∀ (c : ℕ → Bool) (k m : ℕ) (s r : ℚ), c k = true →
        sleepDts (m + 1) s c k r = [])) :=
  ⟨by norm_num, C7_sleep_interruptible (3/2) (by norm_num)⟩

/-! ## Claim theorems for the actuator reply path (C8, C10) -/

theorem handlePayload_ok_iff (payload : Str) (dec : Decoded) :
    (handlePayload payload dec).1.ok = false ↔ stripList payload = [] := by
  by_cases ht : stripList payload = []
  · simp [handlePayload, ht]
  · simp only [handlePayload, ht, if_false]
    split_ifs <;> simp [ht]

theorem handlePayload_err_eq (payload : Str) (dec : Decoded) :
    (handlePayload payload dec).1.err =
      if stripList payload = [] then some "empty_payload".data
      else none := by
  by_cases ht : stripList payload = []
  · simp [handlePayload, ht]
  · simp only [handlePayload, ht, if_false]
    split_ifs <;> simp [ht]

/-- C8 (confirmed): `handle_payload` replies with an error exactly when
the payload is empty after stripping (and then carries the non-empty
message `empty_payload`); every non-empty payload gets a status-ok reply
— in particular a `stop` command never gets an error — and inside a
sequence an unparseable token is skipped with a warning while the
remaining tokens still execute (`dance 2` is warned about, yet the
following `right 1` still asserts its pin pattern). -/
theorem C8_reply_and_skip :
    (∀ (payload : Str) (dec : Decoded),
      ((handlePayload payload dec).1.ok = false ↔
        stripList payload = [])) ∧
    (∀ (payload : Str) (dec : Decoded),
      (handlePayload payload dec).1.err =
        if stripList payload = [] then some "empty_payload".data
        else none) ∧
    ((handlePayload "stop".data Decoded.text).1.ok = true) ∧
    (Event.warnUnknown "dance 2".data ∈
      executeSequence "forward 1; dance 2; right 1".data false) ∧
    (Event.applyBits (true, false, false) ∈
      executeSequence "forward 1; dance 2; right 1".data false) := by
  have h1 : executeSequence "forward 1; dance 2; right 1".data false =
      executeToken "forward 1".data false ++
        (executeToken "dance 2".data false ++
          (executeToken "right 1".data false ++ [])) ++
        [Event.stopPins] ++
        (sleepInterruptible pauseAfterSeq (fun _ => false) (1 / 20)).map
          Event.slept := rfl
  have hd : executeToken "dance 2".data false =
      [Event.warnUnknown "dance 2".data] := rfl
  have hr : Event.applyBits (true, false, false) ∈
      executeToken "right 1".data false :=
    List.mem_cons_self _ _
  refine ⟨handlePayload_ok_iff, handlePayload_err_eq, rfl, ?_, ?_⟩
  · rw [h1, hd]
    simp [List.mem_append]
  · rw [h1]
    exact List.mem_append_left _ (List.mem_append_left _
      (List.mem_append_right _ (List.mem_append_right _
        (List.mem_append_left _ hr))))

/-- C10 (confirmed): any payload whose selected command string strips and
lowercases to `"s"` or `"seq stop"` is handled exactly like `"stop"` —
including commands arriving in a JSON `cmd` field — producing the stop
action (cancel current motion, assert the stop pin pattern) and the ok
reply with `cmd` `"stop"`. -/
theorem C10_stop_aliases (payload : Str) (dec : Decoded)
    (h0 : stripList payload ≠ [])
    (h : pyLower (stripList (decodedCmd (stripList payload) dec)) =
          "s".data ∨
        pyLower (stripList (decodedCmd (stripList payload) dec)) =
          "seq stop".data) :
    handlePayload payload dec = handlePayload "stop".data Decoded.text ∧
    (handlePayload payload dec).1 =
      { ok := true, mode := some "stop".data, cmd := some "stop".data,
        err := none } ∧
    (handlePayload payload dec).2 = MotionAction.stop ∧
    actionEvents (handlePayload payload dec).2 = [Event.stopPins] := by
  have hres : handlePayload payload dec =
      ({ ok := true, mode := some "stop".data, cmd := some "stop".data,
         err := none }, MotionAction.stop) := by
    simp only [handlePayload]
    rw [if_neg h0, if_pos (by
      rcases h with h | h
      exacts [Or.inr (Or.inl h), Or.inr (Or.inr h)])]
  rw [hres]
  exact ⟨rfl, rfl, rfl, rfl⟩

/-- Witness for C10: the payload `"  S "` (text form) is a stop alias. -/
theorem C10_witness :
    (stripList "  S ".data ≠ [] ∧
      pyLower (stripList (decodedCmd (stripList "  S ".data)
        Decoded.text)) = "s".data) ∧
    (handlePayload "  S ".data Decoded.text =
        handlePayload "stop".data Decoded.text ∧
      (handlePayload "  S ".data Decoded.text).1 =
        { ok := true, mode := some "stop".data, cmd := some "stop".data,
          err := none } ∧
      (handlePayload "  S ".data Decoded.text).2 = MotionAction.stop ∧
      actionEvents (handlePayload "  S ".data Decoded.text).2 =
        [Event.stopPins]) :=
  ⟨⟨by decide, by decide⟩,
    C10_stop_aliases "  S ".data Decoded.text (by decide)
      (Or.inl (by decide))⟩
